import Mathlib

/-!
Shallow embedding of `src/main.rs` of phrasematcher-rs: an approximate
phrase (n-gram) matcher.  Strings are Lean `String`s, Rust `HashMap` /
`HashSet` are modelled as association lists / duplicate-free lists with
membership semantics, `usize`/`u32` are `Nat` with explicit `% 2^32`
where the Rust code truncates, and fallible file I/O is modelled by
`Option` on the file contents (`none` = the file could not be opened or
deserialized).
-/

set_option maxRecDepth 4000

/-- One step of Rust `str::split_whitespace`, consumed right-to-left:
whitespace closes the current word, any other char is prepended to it. -/
def splitStep (c : Char) (acc : List (List Char)) : List (List Char) :=
  if c.isWhitespace then [] :: acc
  else
    match acc with
    | [] => [[c]]
    | w :: rest => (c :: w) :: rest

/-- Rust `str::split_whitespace` on a char list: maximal runs of
non-whitespace characters, in order. -/
def splitWSChars (cs : List Char) : List (List Char) :=
  (cs.foldr splitStep []).filter (fun w => !w.isEmpty)

/-- Rust `str::split_whitespace` returning the words as strings; this is also
the tokenizer installed in `main` (`|x| x.split_whitespace()...collect()`). -/
def split_whitespace (s : String) : List String :=
  (splitWSChars s.data).map String.mk

/-- Rust `str::trim` on a char list: strip leading and trailing whitespace. -/
def trimChars (cs : List Char) : List Char :=
  ((cs.dropWhile Char.isWhitespace).reverse.dropWhile Char.isWhitespace).reverse

/-- Rust `str::trim`. -/
def trimStr (s : String) : String :=
  String.mk (trimChars s.data)

/-- Rust `str::to_lowercase`, modelled by per-char ASCII case folding
(`Char.toLower`); exact on the ASCII inputs the claims are about. -/
def toLowerStr (s : String) : String :=
  String.mk (s.data.map Char.toLower)

/-- UTF-8 encoding of one char, as the list of its byte values. -/
def utf8Bytes (c : Char) : List Nat :=
  let n := c.toNat
  if n < 0x80 then [n]
  else if n < 0x800 then
    [0xC0 ||| (n >>> 6), 0x80 ||| (n &&& 0x3F)]
  else if n < 0x10000 then
    [0xE0 ||| (n >>> 12), 0x80 ||| ((n >>> 6) &&& 0x3F), 0x80 ||| (n &&& 0x3F)]
  else
    [0xF0 ||| (n >>> 18), 0x80 ||| ((n >>> 12) &&& 0x3F),
     0x80 ||| ((n >>> 6) &&& 0x3F), 0x80 ||| (n &&& 0x3F)]

/-- The UTF-8 bytes of a string (Rust `str::as_bytes`). -/
def strBytes (s : String) : List Nat :=
  s.data.flatMap utf8Bytes

/-- One bit-step of the reflected CRC-32 (IEEE polynomial `0xEDB88320`). -/
def crcStep (crc : Nat) : Nat :=
  if crc % 2 = 1 then (crc / 2) ^^^ 0xEDB88320 else crc / 2

/-- Iterate `crcStep` a given number of times. -/
def crcBits : Nat → Nat → Nat
  | 0, crc => crc
  | n + 1, crc => crcBits n (crcStep crc)

/-- `PhraseMatcher::crc32`: CRC-32 (IEEE) of the UTF-8 bytes of `text`,
as computed by `crc::crc32::checksum_ieee`, followed by the source's
`% 0xFFFFFFFF`. -/
def crc32 (text : String) : Nat :=
  let crc := (strBytes text).foldl (fun crc b => crcBits 8 (crc ^^^ b)) 0xFFFFFFFF
  (crc ^^^ 0xFFFFFFFF) % 0xFFFFFFFF

/-- `PhraseMatcher::fletcher`: Fletcher-style checksum over the code sequence;
each `usize` code is truncated `as u32` before being added mod 255. -/
def fletcher (arr : List Nat) : Nat :=
  let r := arr.foldl
    (fun (p : Nat × Nat) v =>
      let s1 := (p.1 + v % 4294967296) % 255
      (s1, (p.2 + s1) % 255))
    (0, 0)
  r.1 * 256 + r.2

/-- The vocabulary: Rust `HashMap<String, usize>`, modelled as an association
list whose keys are kept distinct by the update operations. -/
abbrev Vocab := List (String × Nat)

/-- `HashMap::get`: the value stored at key `k` of the association list, if
any. -/
def vlookup : Vocab → String → Option Nat
  | [], _ => none
  | p :: m, k => if p.1 == k then some p.2 else vlookup m k

/-- `*wc.entry(w).or_insert(0) += 1` of `build_vocab`: bump the count of `w`,
inserting it with count 1 if absent. -/
def bumpCount (m : Vocab) (w : String) : Vocab :=
  if m.any (fun p => p.1 == w) then
    m.map (fun p => if p.1 == w then (p.1, p.2 + 1) else p)
  else m ++ [(w, 1)]

/-- `HashMap::insert` (overwriting the value when the key is present). -/
def insertMap (m : Vocab) (k : String) (v : Nat) : Vocab :=
  if m.any (fun p => p.1 == k) then
    m.map (fun p => if p.1 == k then (p.1, v) else p)
  else m ++ [(k, v)]

/-- `PhraseMatcher::build_vocab`: count every token of every line of the
corpus, each line lowercased then trimmed before tokenizing; the resulting
token → occurrence-count map is the vocabulary.  `none` models a corpus file
that could not be opened. -/
def build_vocab (tokenizer : String → List String) (corpus : Option (List String)) : Vocab :=
  match corpus with
  | none => []
  | some lines =>
    lines.foldl
      (fun wc line => (tokenizer (trimStr (toLowerStr line))).foldl bumpCount wc)
      []

/-- `PhraseMatcher::read_vocab`: for each line (lowercased then trimmed), take
its first token and `wc.insert(word, wc.len())`.  `none` models a vocabulary
file that could not be opened. -/
def read_vocab (tokenizer : String → List String) (file : Option (List String)) : Vocab :=
  match file with
  | none => []
  | some lines =>
    lines.foldl
      (fun wc line =>
        match (tokenizer (trimStr (toLowerStr line))).head? with
        | some word => insertMap wc word wc.length
        | none => wc)
      []

/-- The compiled filter `Patterns`: four `HashSet`s, modelled as lists kept
duplicate-free by `insertSet`. -/
structure Patterns where
  lengths : List Nat
  b_ints : List Nat
  e_ints : List Nat
  checksums : List (Nat × Nat)

/-- `Patterns::new`. -/
def Patterns.new : Patterns :=
  { lengths := [], b_ints := [], e_ints := [], checksums := [] }

/-- `HashSet::insert`: add an element unless it is already present. -/
def insertSet {α : Type} [DecidableEq α] (a : α) (l : List α) : List α :=
  if a ∈ l then l else l ++ [a]

/-- The token-resolution loop of `compile`: push the vocabulary code of every
token; on the first unresolvable token the whole vector is cleared (`none`). -/
def resolveTokens (vocab : Vocab) : List String → Option (List Nat)
  | [] => some []
  | t :: ts =>
    match vlookup vocab t with
    | some c => (resolveTokens vocab ts).map (fun cs => c :: cs)
    | none => none

/-- The body of `compile`'s per-line loop: trim and whitespace-split the
pattern, skip it if longer than `max_len`, if any token is unresolvable, or
if it has no tokens; otherwise insert its length, first code, last code and
checksum pair into the four sets. -/
def compileLine (vocab : Vocab) (max_len : Nat) (P : Patterns) (pat : String) : Patterns :=
  if (split_whitespace (trimStr pat)).length > max_len then P
  else
    match resolveTokens vocab (split_whitespace (trimStr pat)) with
    | none => P
    | some [] => P
    | some (c :: cs) =>
      { lengths := insertSet (split_whitespace (trimStr pat)).length P.lengths
        b_ints := insertSet c P.b_ints
        e_ints :=
          insertSet ((c :: cs).getD ((split_whitespace (trimStr pat)).length - 1) 0) P.e_ints
        checksums :=
          insertSet
            (crc32 (String.intercalate " " (split_whitespace (trimStr pat))),
             fletcher (c :: cs))
            P.checksums }

/-- `PhraseMatcher::compile`: fold `compileLine` over the pattern corpus,
starting from `Patterns::new`. -/
def compile (vocab : Vocab) (corpus : List String) (max_len : Nat) : Patterns :=
  corpus.foldl (compileLine vocab max_len) Patterns.new

/-- The `tok_ints` vector of `match_phrase`: each sentence token's vocabulary
code, with the sentinel `0` substituted for out-of-vocabulary tokens. -/
def sentCodes (vocab : Vocab) (tok : List String) : List Nat :=
  tok.map (fun t => (vlookup vocab t).getD 0)

/-- The inner-loop body of `match_phrase` for start position `i` and compiled
length `L`: bounds check, out-of-vocabulary check, last-code check and
checksum check, yielding the candidate span `(i, j)` when all pass. -/
def windowCheck (P : Patterns) (ti : List Nat) (tok : List String) (i L : Nat) :
    Option (Nat × Nat) :=
  if i + L - 1 + 1 > ti.length then none
  else if ((ti.drop i).take (i + L - 1 + 1 - i)).contains 0 then none
  else if !P.e_ints.contains (ti.getD (i + L - 1) 0) then none
  else if P.checksums.contains
      (crc32 (String.intercalate " " ((tok.drop i).take (i + L - 1 + 1 - i))),
       fletcher ((ti.drop i).take (i + L - 1 + 1 - i))) then
    some (i, i + L - 1)
  else none

/-- The candidate-span set of `match_phrase`: for every start position whose
code is in `b_ints` and every compiled length, the spans passing
`windowCheck`, deduplicated (`HashSet<(usize, usize)>`). -/
def candidates (P : Patterns) (vocab : Vocab) (tok : List String) : List (Nat × Nat) :=
  (List.range (sentCodes vocab tok).length).foldl
    (fun acc i =>
      if P.b_ints.contains ((sentCodes vocab tok).getD i 0) then
        P.lengths.foldl
          (fun acc2 L =>
            match windowCheck P (sentCodes vocab tok) tok i L with
            | some c => insertSet c acc2
            | none => acc2)
          acc
      else acc)
    []

/-- The `remove_subset` step of `match_phrase`: drop every span for which a
different span of the candidate set contains it. -/
def removeSubsets (cands : List (Nat × Nat)) : List (Nat × Nat) :=
  cands.filter
    (fun s => !cands.any (fun s2 => s2 != s && decide (s2.1 ≤ s.1) && decide (s.2 ≤ s2.2)))

/-- `match_phrase` after tokenization: collect the candidate spans, optionally
remove contained ones, and join each surviving span's tokens with spaces. -/
def matchTokens (vocab : Vocab) (P : Patterns) (tok : List String) (remove_subset : Bool) :
    List String :=
  (if remove_subset then removeSubsets (candidates P vocab tok)
   else candidates P vocab tok).map
    (fun s => String.intercalate " " ((tok.drop s.1).take (s.2 + 1 - s.1)))

/-- `PhraseMatcher::match_phrase`: trim the sentence, tokenize it with the
matcher's tokenizer, and run the span search. -/
def match_phrase (tokenizer : String → List String) (vocab : Vocab) (P : Patterns)
    (sentence : String) (remove_subset : Bool) : List String :=
  matchTokens vocab P (tokenizer (trimStr sentence)) remove_subset

/-- `PhraseMatcher::load_saved_data`, starting from the defaults installed by
`PhraseMatcher::new` (empty vocabulary, `Patterns::new`): each structure is
overwritten only when its file opens and deserializes (`some`), else it keeps
its default. -/
def load_saved_data (vfile : Option Vocab) (pfile : Option Patterns) : Vocab × Patterns :=
  (vfile.getD [], pfile.getD Patterns.new)

/-! ### Basic lemmas about the set and map models -/

theorem mem_insertSet {α : Type} [DecidableEq α] {a b : α} {l : List α} :
    b ∈ insertSet a l ↔ b = a ∨ b ∈ l := by
  unfold insertSet
  split
  · rename_i h
    constructor
    · exact fun hb => Or.inr hb
    · rintro (rfl | hb)
      · exact h
      · exact hb
  · simp [List.mem_append, or_comm]

theorem subset_insertSet {α : Type} [DecidableEq α] {a : α} {l : List α} :
    l ⊆ insertSet a l := by
  intro x hx
  exact mem_insertSet.mpr (Or.inr hx)

theorem self_mem_insertSet {α : Type} [DecidableEq α] {a : α} {l : List α} :
    a ∈ insertSet a l :=
  mem_insertSet.mpr (Or.inl rfl)

theorem contains_iff_mem {α : Type} [BEq α] [LawfulBEq α] {l : List α} {a : α} :
    l.contains a = true ↔ a ∈ l := by
  induction l with
  | nil => simp
  | cons b l ih => simp [List.contains, List.elem_cons]

theorem contains_eq_false_iff {α : Type} [BEq α] [LawfulBEq α] {l : List α} {a : α} :
    l.contains a = false ↔ a ∉ l := by
  rw [← contains_iff_mem]
  cases h : l.contains a <;> simp

/-- Membership in a `foldl` that only ever adds elements, characterized by a
per-step predicate `Q`. -/
theorem foldl_mem_char {α β : Type} (g : List β → α → List β) (Q : α → β → Prop)
    (hg : ∀ acc a x, x ∈ g acc a ↔ x ∈ acc ∨ Q a x) (l : List α) :
    ∀ (acc : List β) (x : β), x ∈ l.foldl g acc ↔ x ∈ acc ∨ ∃ a ∈ l, Q a x := by
  induction l with
  | nil => simp
  | cons a l ih =>
    intro acc x
    rw [List.foldl_cons, ih (g acc a) x, hg acc a x]
    constructor
    · rintro ((h | h) | ⟨a', ha', hq⟩)
      · exact Or.inl h
      · exact Or.inr ⟨a, List.mem_cons_self a l, h⟩
      · exact Or.inr ⟨a', List.mem_cons_of_mem a ha', hq⟩
    · rintro (h | ⟨a', ha', hq⟩)
      · exact Or.inl (Or.inl h)
      · rcases List.mem_cons.mp ha' with rfl | ha'
        · exact Or.inl (Or.inr hq)
        · exact Or.inr ⟨a', ha', hq⟩

/-! ### Characterization of the query engine's candidate set -/

theorem windowCheck_eq_some {P : Patterns} {ti : List Nat} {tok : List String} {i L : Nat}
    {p : Nat × Nat} :
    windowCheck P ti tok i L = some p ↔
      p = (i, i + L - 1) ∧
      i + L - 1 + 1 ≤ ti.length ∧
      ((ti.drop i).take (i + L - 1 + 1 - i)).contains 0 = false ∧
      P.e_ints.contains (ti.getD (i + L - 1) 0) = true ∧
      P.checksums.contains
        (crc32 (String.intercalate " " ((tok.drop i).take (i + L - 1 + 1 - i))),
         fletcher ((ti.drop i).take (i + L - 1 + 1 - i))) = true := by
  unfold windowCheck
  split_ifs with h1 h2 h3 h4
  · constructor
    · intro h
      exact absurd h (by simp)
    · rintro ⟨-, h, -⟩
      omega
  · constructor
    · intro h
      exact absurd h (by simp)
    · rintro ⟨-, -, h, -⟩
      rw [h2] at h
      simp at h
  · constructor
    · intro h
      exact absurd h (by simp)
    · rintro ⟨-, -, -, h, -⟩
      rw [Bool.not_eq_true'] at h3
      rw [h3] at h
      simp at h
  · constructor
    · intro h
      obtain rfl : p = (i, i + L - 1) := (Option.some_inj.mp h).symm
      refine ⟨rfl, by omega, by simpa using h2, ?_, h4⟩
      have h3' : ¬((!P.e_ints.contains (ti.getD (i + L - 1) 0)) = true) := h3
      simpa using h3'
    · rintro ⟨rfl, -⟩
      rfl
  · constructor
    · intro h
      exact absurd h (by simp)
    · rintro ⟨-, -, -, -, h⟩
      exact absurd h h4

theorem mem_candidates {P : Patterns} {vocab : Vocab} {tok : List String} {p : Nat × Nat} :
    p ∈ candidates P vocab tok ↔
      ∃ i, i < (sentCodes vocab tok).length ∧
        P.b_ints.contains ((sentCodes vocab tok).getD i 0) = true ∧
        ∃ L ∈ P.lengths, windowCheck P (sentCodes vocab tok) tok i L = some p := by
  unfold candidates
  rw [foldl_mem_char _
    (fun i x =>
      P.b_ints.contains ((sentCodes vocab tok).getD i 0) = true ∧
      ∃ L ∈ P.lengths, windowCheck P (sentCodes vocab tok) tok i L = some x)
    ?hg (List.range (sentCodes vocab tok).length) [] p]
  case hg =>
    intro acc i x
    split_ifs with hb
    · rw [foldl_mem_char _
        (fun L x => windowCheck P (sentCodes vocab tok) tok i L = some x)
        ?hg2 P.lengths acc x]
      case hg2 =>
        intro acc2 L x2
        cases hw : windowCheck P (sentCodes vocab tok) tok i L with
        | none => simp [hw]
        | some c =>
          simp only [hw, mem_insertSet, Option.some.injEq]
          constructor
          · rintro (rfl | h)
            · exact Or.inr rfl
            · exact Or.inl h
          · rintro (h | rfl)
            · exact Or.inr h
            · exact Or.inl rfl
      constructor
      · rintro (h | h)
        · exact Or.inl h
        · exact Or.inr ⟨hb, h⟩
      · rintro (h | ⟨-, h⟩)
        · exact Or.inl h
        · exact Or.inr h
    · constructor
      · exact fun h => Or.inl h
      · rintro (h | ⟨hb', -⟩)
        · exact h
        · exact absurd hb' hb
  simp only [List.not_mem_nil, false_or, List.mem_range]

/-- If a candidate span `(i, j)` was recorded then no position of `[i, j]`
holds the out-of-vocabulary sentinel `0`. -/
theorem candidates_no_zero {P : Patterns} {vocab : Vocab} {tok : List String} {i j : Nat}
    (h : (i, j) ∈ candidates P vocab tok) :
    ∀ k, i ≤ k → k ≤ j → (sentCodes vocab tok).getD k 0 ≠ 0 := by
  intro k hik hkj hzero
  rcases mem_candidates.mp h with ⟨i', -, -, L, -, hw⟩
  rcases windowCheck_eq_some.mp hw with ⟨hp, hlen, hcont, -, -⟩
  simp only [Prod.mk.injEq] at hp
  obtain ⟨rfl, hj⟩ := hp
  subst hj
  have hkl : k < (sentCodes vocab tok).length := by omega
  have hlen2 : k - i < (((sentCodes vocab tok).drop i).take (i + L - 1 + 1 - i)).length := by
    simp only [List.length_take, List.length_drop]
    omega
  have hget : (((sentCodes vocab tok).drop i).take (i + L - 1 + 1 - i)).get ⟨k - i, hlen2⟩ =
      (sentCodes vocab tok).getD k 0 := by
    rw [List.get_eq_getElem, List.getElem_take, List.getElem_drop,
      List.getD_eq_getElem _ _ hkl]
    congr 1
    show i + (k - i) = k
    omega
  have hmem : (sentCodes vocab tok).getD k 0 ∈
      ((sentCodes vocab tok).drop i).take (i + L - 1 + 1 - i) := by
    rw [← hget]
    exact List.get_mem _ _ _
  rw [hzero] at hmem
  exact (contains_eq_false_iff.mp hcont) hmem

/-! ### Lemmas about pattern compilation -/

theorem resolveTokens_length {vocab : Vocab} {ts : List String} {cs : List Nat}
    (h : resolveTokens vocab ts = some cs) : cs.length = ts.length := by
  induction ts generalizing cs with
  | nil =>
    simp only [resolveTokens, Option.some_inj] at h
    subst h
    rfl
  | cons t ts ih =>
    simp only [resolveTokens] at h
    cases hv : vlookup vocab t with
    | none => rw [hv] at h; cases h
    | some c =>
      rw [hv] at h
      cases hr : resolveTokens vocab ts with
      | none => rw [hr] at h; cases h
      | some cs' =>
        rw [hr] at h
        simp only [Option.map_some', Option.some_inj] at h
        subst h
        simp [ih hr]

theorem resolveTokens_sentCodes {vocab : Vocab} {ts : List String} {cs : List Nat}
    (h : resolveTokens vocab ts = some cs) : sentCodes vocab ts = cs := by
  induction ts generalizing cs with
  | nil =>
    simp only [resolveTokens, Option.some_inj] at h
    subst h
    rfl
  | cons t ts ih =>
    simp only [resolveTokens] at h
    cases hv : vlookup vocab t with
    | none => rw [hv] at h; cases h
    | some c =>
      rw [hv] at h
      cases hr : resolveTokens vocab ts with
      | none => rw [hr] at h; cases h
      | some cs' =>
        rw [hr] at h
        simp only [Option.map_some', Option.some_inj] at h
        subst h
        simp only [sentCodes, List.map_cons, hv, Option.getD_some]
        exact congrArg _ (ih hr)

theorem resolveTokens_eq_none {vocab : Vocab} {ts : List String} {t : String}
    (ht : t ∈ ts) (h : vlookup vocab t = none) : resolveTokens vocab ts = none := by
  induction ts with
  | nil => cases ht
  | cons t' ts ih =>
    rcases List.mem_cons.mp ht with rfl | ht'
    · simp [resolveTokens, h]
    · simp only [resolveTokens]
      cases hv : vlookup vocab t' with
      | none => rfl
      | some c => rw [ih ht']; rfl

theorem compileLine_subset (vocab : Vocab) (max_len : Nat) (P : Patterns) (pat : String) :
    P.lengths ⊆ (compileLine vocab max_len P pat).lengths ∧
    P.b_ints ⊆ (compileLine vocab max_len P pat).b_ints ∧
    P.e_ints ⊆ (compileLine vocab max_len P pat).e_ints ∧
    P.checksums ⊆ (compileLine vocab max_len P pat).checksums := by
  unfold compileLine
  split_ifs with h
  · exact ⟨fun _ hx => hx, fun _ hx => hx, fun _ hx => hx, fun _ hx => hx⟩
  · cases hres : resolveTokens vocab (split_whitespace (trimStr pat)) with
    | none => exact ⟨fun _ hx => hx, fun _ hx => hx, fun _ hx => hx, fun _ hx => hx⟩
    | some cs0 =>
      cases cs0 with
      | nil => exact ⟨fun _ hx => hx, fun _ hx => hx, fun _ hx => hx, fun _ hx => hx⟩
      | cons c cs =>
        exact ⟨subset_insertSet, subset_insertSet, subset_insertSet, subset_insertSet⟩

theorem foldl_compileLine_subset (vocab : Vocab) (max_len : Nat) (ls : List String) :
    ∀ P : Patterns,
      P.lengths ⊆ (ls.foldl (compileLine vocab max_len) P).lengths ∧
      P.b_ints ⊆ (ls.foldl (compileLine vocab max_len) P).b_ints ∧
      P.e_ints ⊆ (ls.foldl (compileLine vocab max_len) P).e_ints ∧
      P.checksums ⊆ (ls.foldl (compileLine vocab max_len) P).checksums := by
  induction ls with
  | nil => exact fun P => ⟨fun _ hx => hx, fun _ hx => hx, fun _ hx => hx, fun _ hx => hx⟩
  | cons l ls ih =>
    intro P
    have h1 := compileLine_subset vocab max_len P l
    have h2 := ih (compileLine vocab max_len P l)
    exact ⟨fun x hx => h2.1 (h1.1 hx), fun x hx => h2.2.1 (h1.2.1 hx),
           fun x hx => h2.2.2.1 (h1.2.2.1 hx), fun x hx => h2.2.2.2 (h1.2.2.2 hx)⟩

/-- A pattern line that survives all of `compile`'s skip conditions contributes
its length, first code, last code and checksum pair to the compiled sets. -/
theorem compile_mem {vocab : Vocab} {max_len : Nat} {lines : List String} {line : String}
    {c : Nat} {cs : List Nat}
    (hline : line ∈ lines)
    (hres : resolveTokens vocab (split_whitespace (trimStr line)) = some (c :: cs))
    (hlen : (split_whitespace (trimStr line)).length ≤ max_len) :
    (split_whitespace (trimStr line)).length ∈ (compile vocab lines max_len).lengths ∧
    c ∈ (compile vocab lines max_len).b_ints ∧
    (c :: cs).getD ((split_whitespace (trimStr line)).length - 1) 0 ∈
      (compile vocab lines max_len).e_ints ∧
    (crc32 (String.intercalate " " (split_whitespace (trimStr line))), fletcher (c :: cs)) ∈
      (compile vocab lines max_len).checksums := by
  have main : ∀ (ls : List String) (P : Patterns), line ∈ ls →
      (split_whitespace (trimStr line)).length ∈
        (ls.foldl (compileLine vocab max_len) P).lengths ∧
      c ∈ (ls.foldl (compileLine vocab max_len) P).b_ints ∧
      (c :: cs).getD ((split_whitespace (trimStr line)).length - 1) 0 ∈
        (ls.foldl (compileLine vocab max_len) P).e_ints ∧
      (crc32 (String.intercalate " " (split_whitespace (trimStr line))), fletcher (c :: cs)) ∈
        (ls.foldl (compileLine vocab max_len) P).checksums := by
    intro ls
    induction ls with
    | nil => intro P h; cases h
    | cons l ls ih =>
      intro P h
      rcases List.mem_cons.mp h with rfl | h'
      · have hm :
            (split_whitespace (trimStr line)).length ∈
              (compileLine vocab max_len P line).lengths ∧
            c ∈ (compileLine vocab max_len P line).b_ints ∧
            (c :: cs).getD ((split_whitespace (trimStr line)).length - 1) 0 ∈
              (compileLine vocab max_len P line).e_ints ∧
            (crc32 (String.intercalate " " (split_whitespace (trimStr line))),
              fletcher (c :: cs)) ∈ (compileLine vocab max_len P line).checksums := by
          unfold compileLine
          rw [if_neg (by omega), hres]
          exact ⟨self_mem_insertSet, self_mem_insertSet, self_mem_insertSet, self_mem_insertSet⟩
        rw [List.foldl_cons]
        have hsub := foldl_compileLine_subset vocab max_len ls (compileLine vocab max_len P line)
        exact ⟨hsub.1 hm.1, hsub.2.1 hm.2.1, hsub.2.2.1 hm.2.2.1, hsub.2.2.2 hm.2.2.2⟩
      · rw [List.foldl_cons]
        exact ih (compileLine vocab max_len P l) h'
  exact main lines Patterns.new hline

/-- Every length the compiler records lies between `1` and `max_len`. -/
theorem compile_lengths_bound {vocab : Vocab} {max_len : Nat} {lines : List String} :
    ∀ L ∈ (compile vocab lines max_len).lengths, 1 ≤ L ∧ L ≤ max_len := by
  have main : ∀ (ls : List String) (P : Patterns),
      (∀ L ∈ P.lengths, 1 ≤ L ∧ L ≤ max_len) →
      ∀ L ∈ (ls.foldl (compileLine vocab max_len) P).lengths, 1 ≤ L ∧ L ≤ max_len := by
    intro ls
    induction ls with
    | nil => exact fun P hP => hP
    | cons l ls ih =>
      intro P hP
      rw [List.foldl_cons]
      apply ih
      intro L hL
      revert hL
      unfold compileLine
      split_ifs with h
      · exact fun hL => hP L hL
      · cases hres : resolveTokens vocab (split_whitespace (trimStr l)) with
        | none => exact fun hL => hP L hL
        | some cs0 =>
          cases cs0 with
          | nil => exact fun hL => hP L hL
          | cons c cs =>
            intro hL
            rcases mem_insertSet.mp hL with rfl | hL'
            · have hlenr := resolveTokens_length hres
              simp only [List.length_cons] at hlenr
              omega
            · exact hP L hL'
  exact main lines Patterns.new (by intro L hL; cases hL)

/-! ### Claim C2: the concrete scenario of the spec -/

/-- C2: with the whitespace tokenizer, a Vocabulary built by `build_vocab` from
the corpus `["a b", "c"]`, and `compile` over the same corpus with
`max_len = 2`, the compiled filter's `lengths` is exactly `{1, 2}`;
`match_phrase` on `"a b c"` with `remove_subset = false` returns exactly the
set `{"a b", "c"}`, and in particular returns none of `"a"`, `"b"`, `"b c"`. -/
theorem C2_concrete_scenario :
    (1 ∈ (compile (build_vocab split_whitespace (some ["a b", "c"]))
        ["a b", "c"] 2).lengths ∧
     2 ∈ (compile (build_vocab split_whitespace (some ["a b", "c"]))
        ["a b", "c"] 2).lengths ∧
     ∀ n ∈ (compile (build_vocab split_whitespace (some ["a b", "c"]))
        ["a b", "c"] 2).lengths, n = 1 ∨ n = 2) ∧
    ("a b" ∈ match_phrase split_whitespace (build_vocab split_whitespace (some ["a b", "c"]))
        (compile (build_vocab split_whitespace (some ["a b", "c"])) ["a b", "c"] 2)
        "a b c" false ∧
     "c" ∈ match_phrase split_whitespace (build_vocab split_whitespace (some ["a b", "c"]))
        (compile (build_vocab split_whitespace (some ["a b", "c"])) ["a b", "c"] 2)
        "a b c" false ∧
     ∀ s ∈ match_phrase split_whitespace (build_vocab split_whitespace (some ["a b", "c"]))
        (compile (build_vocab split_whitespace (some ["a b", "c"])) ["a b", "c"] 2)
        "a b c" false, s = "a b" ∨ s = "c") ∧
    "a" ∉ match_phrase split_whitespace (build_vocab split_whitespace (some ["a b", "c"]))
        (compile (build_vocab split_whitespace (some ["a b", "c"])) ["a b", "c"] 2)
        "a b c" false ∧
    "b" ∉ match_phrase split_whitespace (build_vocab split_whitespace (some ["a b", "c"]))
        (compile (build_vocab split_whitespace (some ["a b", "c"])) ["a b", "c"] 2)
        "a b c" false ∧
    "b c" ∉ match_phrase split_whitespace (build_vocab split_whitespace (some ["a b", "c"]))
        (compile (build_vocab split_whitespace (some ["a b", "c"])) ["a b", "c"] 2)
        "a b c" false := by
  decide

/-! ### Claim C7: empty-on-failure error policy -/

/-- C7: when the vocabulary or patterns file cannot be opened or deserialized
(`none`), `load_saved_data` leaves the corresponding structure at its default
empty value; likewise `build_vocab` on an unopenable corpus file yields the
empty Vocabulary. -/
theorem C7_empty_on_failure (ov : Option Vocab) (op : Option Patterns)
    (tokenizer : String → List String) :
    (load_saved_data none op).1 = [] ∧
    (load_saved_data ov none).2 = Patterns.new ∧
    build_vocab tokenizer none = [] :=
  ⟨rfl, rfl, rfl⟩

/-! ### Claim C1, counterexample part -/

/-- C1 as stated is false: with the Vocabulary `read_vocab` builds from the
one-line file `["t"]` (which maps `"t"` to code `0`), the pattern line `"t"`
is included verbatim in the compiling corpus, every token is resolvable, its
token count `1` is at most `max_len = 1`, and the query sentence `"t"`
contains the pattern's token sequence, yet `match_phrase` records no candidate
span at all and returns no matches: the code-0 token is treated as
out-of-vocabulary by the query engine. -/
theorem C1_counterexample :
    vlookup (read_vocab split_whitespace (some ["t"])) "t" = some 0 ∧
    "t" ∈ (["t"] : List String) ∧
    resolveTokens (read_vocab split_whitespace (some ["t"]))
      (split_whitespace (trimStr "t")) = some [0] ∧
    (split_whitespace (trimStr "t")).length ≤ 1 ∧
    split_whitespace (trimStr "t") = [] ++ split_whitespace (trimStr "t") ++ [] ∧
    candidates (compile (read_vocab split_whitespace (some ["t"])) ["t"] 1)
      (read_vocab split_whitespace (some ["t"])) (split_whitespace (trimStr "t")) = [] ∧
    match_phrase split_whitespace (read_vocab split_whitespace (some ["t"]))
      (compile (read_vocab split_whitespace (some ["t"])) ["t"] 1) "t" false = [] := by
  decide

/-! ### Claim C6, counterexample part -/

/-- C6 as stated is false: `read_vocab` does not keep the code assigned at a
first token's earliest occurrence.  On the vocabulary file `["a", "b", "a"]`
the repeated first token `"a"` ends up with code `2` (the map's size at its
latest occurrence), not the code `0` assigned at its earliest occurrence. -/
theorem C6_counterexample :
    vlookup (read_vocab split_whitespace (some ["a", "b", "a"])) "a" = some 2 ∧
    (2 : Nat) ≠ 0 ∧
    vlookup (read_vocab split_whitespace (some ["a", "b", "a"])) "b" = some 1 ∧
    ∀ w : String, vlookup (read_vocab split_whitespace (some ["a", "b", "a"])) w ≠ some 0 := by
  refine ⟨by decide, by decide, by decide, ?_⟩
  intro w hw
  have hv : read_vocab split_whitespace (some ["a", "b", "a"]) = [("a", 2), ("b", 1)] := by
    decide
  rw [hv] at hw
  simp only [vlookup] at hw
  split_ifs at hw <;> simp at hw

/-! ### Claim C4: maximal-span reduction -/

theorem mem_removeSubsets {cands : List (Nat × Nat)} {s : Nat × Nat} :
    s ∈ removeSubsets cands ↔
      s ∈ cands ∧ ∀ s2 ∈ cands, s2 ≠ s → ¬(s2.1 ≤ s.1 ∧ s.2 ≤ s2.2) := by
  unfold removeSubsets
  rw [List.mem_filter]
  apply and_congr_right
  intro hs
  rw [Bool.not_eq_true', List.any_eq_false]
  constructor
  · intro h s2 hs2 hne hcon
    have := h s2 hs2
    simp only [Bool.and_eq_true, bne_iff_ne, decide_eq_true_eq] at this
    exact this ⟨⟨hne, hcon.1⟩, hcon.2⟩
  · intro h s2 hs2
    simp only [Bool.and_eq_true, bne_iff_ne, decide_eq_true_eq]
    rintro ⟨⟨hne, h1⟩, h2⟩
    exact h s2 hs2 hne ⟨h1, h2⟩

/-- A span list in which no distinct span contains another is a fixed point of
`removeSubsets`. -/
theorem removeSubsets_fixed (l : List (Nat × Nat))
    (hl : ∀ s ∈ l, ∀ s2 ∈ l, s2 ≠ s → ¬(s2.1 ≤ s.1 ∧ s.2 ≤ s2.2)) :
    removeSubsets l = l := by
  unfold removeSubsets
  apply List.filter_eq_self.mpr
  intro s hs
  rw [Bool.not_eq_true', List.any_eq_false]
  intro s2 hs2
  simp only [Bool.and_eq_true, bne_iff_ne, decide_eq_true_eq]
  rintro ⟨⟨hne, h1⟩, h2⟩
  exact hl s hs s2 hs2 hne ⟨h1, h2⟩

/-- C4: subset removal is idempotent; after one application no surviving span
is contained in a different surviving span; and the survivors are exactly the
candidate spans that are maximal under containment. -/
theorem C4_subset_removal (cands : List (Nat × Nat)) :
    removeSubsets (removeSubsets cands) = removeSubsets cands ∧
    (∀ s ∈ removeSubsets cands, ∀ s2 ∈ removeSubsets cands, s2 ≠ s →
        ¬(s2.1 ≤ s.1 ∧ s.2 ≤ s2.2)) ∧
    (∀ s, s ∈ removeSubsets cands ↔
        s ∈ cands ∧ ∀ s2 ∈ cands, s2 ≠ s → ¬(s2.1 ≤ s.1 ∧ s.2 ≤ s2.2)) := by
  have hnc : ∀ s ∈ removeSubsets cands, ∀ s2 ∈ removeSubsets cands, s2 ≠ s →
      ¬(s2.1 ≤ s.1 ∧ s.2 ≤ s2.2) := by
    intro s hs s2 hs2 hne hcon
    rcases mem_removeSubsets.mp hs with ⟨-, hmax⟩
    exact hmax s2 (mem_removeSubsets.mp hs2).1 hne hcon
  exact ⟨removeSubsets_fixed _ hnc, hnc, fun s => mem_removeSubsets⟩

/-- Witness for C4 at a concrete span list: `(0, 0)` is contained in `(0, 1)`
and is dropped; the reduction is a fixed point afterwards. -/
theorem C4_subset_removal_witness :
    removeSubsets (removeSubsets [((0 : Nat), (1 : Nat)), (0, 0), (2, 3)]) =
      removeSubsets [((0 : Nat), (1 : Nat)), (0, 0), (2, 3)] ∧
    (0, 0) ∉ removeSubsets [((0 : Nat), (1 : Nat)), (0, 0), (2, 3)] := by
  refine ⟨(C4_subset_removal _).1, fun h => ?_⟩
  have hmax := ((C4_subset_removal [((0 : Nat), (1 : Nat)), (0, 0), (2, 3)]).2.2 (0, 0)).mp h
  exact hmax.2 (0, 1) (by decide) (by decide) ⟨by decide, by decide⟩

/-! ### Claim C5: atomic contribution of a pattern line -/

/-- C5: each pattern line either contributes its length, first code, last code
and checksum pair to the four compiled sets all together, or leaves the filter
unchanged; in particular a line with an unresolvable token, more than
`max_len` tokens, or no tokens contributes nothing. -/
theorem C5_atomic_contribution (vocab : Vocab) (max_len : Nat) (P : Patterns) (line : String) :
    (compileLine vocab max_len P line = P ∨
      ∃ c cs, resolveTokens vocab (split_whitespace (trimStr line)) = some (c :: cs) ∧
        (split_whitespace (trimStr line)).length ≤ max_len ∧
        compileLine vocab max_len P line =
          { lengths := insertSet (split_whitespace (trimStr line)).length P.lengths
            b_ints := insertSet c P.b_ints
            e_ints := insertSet
              ((c :: cs).getD ((split_whitespace (trimStr line)).length - 1) 0) P.e_ints
            checksums := insertSet
              (crc32 (String.intercalate " " (split_whitespace (trimStr line))),
               fletcher (c :: cs)) P.checksums }) ∧
    ((resolveTokens vocab (split_whitespace (trimStr line)) = none ∨
        (split_whitespace (trimStr line)).length > max_len ∨
        split_whitespace (trimStr line) = []) →
      compileLine vocab max_len P line = P) := by
  unfold compileLine
  split_ifs with h
  · exact ⟨Or.inl rfl, fun _ => rfl⟩
  · cases hres : resolveTokens vocab (split_whitespace (trimStr line)) with
    | none => exact ⟨Or.inl rfl, fun _ => rfl⟩
    | some cs0 =>
      cases cs0 with
      | nil => exact ⟨Or.inl rfl, fun _ => rfl⟩
      | cons c cs =>
        refine ⟨Or.inr ⟨c, cs, rfl, by omega, rfl⟩, ?_⟩
        rintro (hn | hgt | hemp)
        · cases hn
        · omega
        · rw [hemp] at hres
          simp only [resolveTokens, Option.some_inj] at hres
          cases hres

/-- Witness for C5: with an empty Vocabulary the line `"x"` is unresolvable
and contributes nothing. -/
theorem C5_atomic_contribution_witness :
    compileLine [] 5 Patterns.new "x" = Patterns.new :=
  (C5_atomic_contribution [] 5 Patterns.new "x").2 (Or.inl (by decide))

/-! ### Claim C3: filter postcondition of the query engine -/

/-- C3: every candidate span `(i, j)` recorded by the query engine against a
compiled filter has its length in `lengths`, the code at `i` in `b_ints`, the
code at `j` in `e_ints`, and no position of `[i, j]` holding the
out-of-vocabulary sentinel `0`. -/
theorem C3_filter_postcondition (v2 : Vocab) (corpus : List String) (max_len : Nat)
    (vocab : Vocab) (tok : List String) (i j : Nat)
    (h : (i, j) ∈ candidates (compile v2 corpus max_len) vocab tok) :
    (j - i + 1) ∈ (compile v2 corpus max_len).lengths ∧
    (sentCodes vocab tok).getD i 0 ∈ (compile v2 corpus max_len).b_ints ∧
    (sentCodes vocab tok).getD j 0 ∈ (compile v2 corpus max_len).e_ints ∧
    ∀ k, i ≤ k → k ≤ j → (sentCodes vocab tok).getD k 0 ≠ 0 := by
  rcases mem_candidates.mp h with ⟨i', -, hb, L, hL, hw⟩
  rcases windowCheck_eq_some.mp hw with ⟨hp, -, -, he, -⟩
  simp only [Prod.mk.injEq] at hp
  obtain ⟨rfl, hj⟩ := hp
  subst hj
  have hLb := compile_lengths_bound L hL
  refine ⟨?_, contains_iff_mem.mp hb, contains_iff_mem.mp he, candidates_no_zero h⟩
  have harith : i + L - 1 - i + 1 = L := by omega
  rw [harith]
  exact hL

/-- Witness for C3 at the concrete candidate span `(0, 1)` of the scenario of
C2. -/
theorem C3_filter_postcondition_witness :
    (1 - 0 + 1) ∈ (compile (build_vocab split_whitespace (some ["a b", "c"]))
      ["a b", "c"] 2).lengths ∧
    (sentCodes (build_vocab split_whitespace (some ["a b", "c"]))
        (split_whitespace (trimStr "a b c"))).getD 0 0 ∈
      (compile (build_vocab split_whitespace (some ["a b", "c"])) ["a b", "c"] 2).b_ints ∧
    (sentCodes (build_vocab split_whitespace (some ["a b", "c"]))
        (split_whitespace (trimStr "a b c"))).getD 1 0 ∈
      (compile (build_vocab split_whitespace (some ["a b", "c"])) ["a b", "c"] 2).e_ints ∧
    ∀ k, 0 ≤ k → k ≤ 1 →
      (sentCodes (build_vocab split_whitespace (some ["a b", "c"]))
        (split_whitespace (trimStr "a b c"))).getD k 0 ≠ 0 :=
  C3_filter_postcondition (build_vocab split_whitespace (some ["a b", "c"])) ["a b", "c"] 2
    (build_vocab split_whitespace (some ["a b", "c"])) (split_whitespace (trimStr "a b c"))
    0 1 (by decide)

/-! ### Claim C9: compiled-lengths bounds and window safety -/

/-- C9: every length recorded by `compile` lies in `[1, max_len]`; hence every
candidate span `(i, j)` examined against a compiled filter satisfies `i ≤ j`
(the window holds at least one token, and `j = i + p_len - 1` cannot move
before `i`) and `j` stays inside the sentence. -/
theorem C9_compiled_lengths_bounds (vocab : Vocab) (corpus : List String) (max_len : Nat) :
    (∀ L ∈ (compile vocab corpus max_len).lengths, 1 ≤ L ∧ L ≤ max_len) ∧
    (∀ (v2 : Vocab) (tok : List String) (i j : Nat),
        (i, j) ∈ candidates (compile vocab corpus max_len) v2 tok →
        i ≤ j ∧ j < tok.length) := by
  refine ⟨compile_lengths_bound, ?_⟩
  intro v2 tok i j h
  rcases mem_candidates.mp h with ⟨i', -, -, L, hL, hw⟩
  rcases windowCheck_eq_some.mp hw with ⟨hp, hlen, -⟩
  simp only [Prod.mk.injEq] at hp
  obtain ⟨rfl, hj⟩ := hp
  subst hj
  have hLb := compile_lengths_bound L hL
  have hlen2 : (sentCodes v2 tok).length = tok.length := List.length_map _ _
  omega

/-- Witness for C9: the bounds hold at the length `1` and at the candidate
span `(0, 1)` of the scenario of C2. -/
theorem C9_compiled_lengths_bounds_witness :
    ((1 : Nat) ≤ 1 ∧ (1 : Nat) ≤ 2) ∧
    ((0 : Nat) ≤ 1 ∧ 1 < (split_whitespace (trimStr "a b c")).length) :=
  ⟨(C9_compiled_lengths_bounds (build_vocab split_whitespace (some ["a b", "c"]))
      ["a b", "c"] 2).1 1 (by decide),
   (C9_compiled_lengths_bounds (build_vocab split_whitespace (some ["a b", "c"]))
      ["a b", "c"] 2).2 (build_vocab split_whitespace (some ["a b", "c"]))
      (split_whitespace (trimStr "a b c")) 0 1 (by decide)⟩

/-! ### Claim C8: sentinel collision at code 0 -/

theorem sentCodes_getD {vocab : Vocab} {tok : List String} {k : Nat} (hk : k < tok.length) :
    (sentCodes vocab tok).getD k 0 = (vlookup vocab (tok.getD k "")).getD 0 := by
  have hk2 : k < (sentCodes vocab tok).length := by simpa [sentCodes] using hk
  rw [List.getD_eq_getElem _ _ hk2, List.getD_eq_getElem _ _ hk]
  simp [sentCodes]

theorem vlookup_value {m : Vocab} {k : String} {c : Nat} (h : vlookup m k = some c) :
    ∃ p ∈ m, p.2 = c := by
  induction m with
  | nil => cases h
  | cons p m ih =>
    simp only [vlookup] at h
    split_ifs at h with hp
    · exact ⟨p, List.mem_cons_self p m, Option.some_inj.mp h⟩
    · rcases ih h with ⟨q, hq, hc⟩
      exact ⟨q, List.mem_cons_of_mem p hq, hc⟩

theorem bumpCount_values {m : Vocab} {w : String} (hm : ∀ p ∈ m, 1 ≤ p.2) :
    ∀ p ∈ bumpCount m w, 1 ≤ p.2 := by
  intro p hp
  unfold bumpCount at hp
  split_ifs at hp with h
  · rcases List.mem_map.mp hp with ⟨q, hq, hpq⟩
    by_cases hqw : q.1 == w
    · rw [if_pos hqw] at hpq
      rw [← hpq]
      exact Nat.le_add_left 1 q.2
    · rw [if_neg hqw] at hpq
      rw [← hpq]
      exact hm q hq
  · rcases List.mem_append.mp hp with hp' | hp'
    · exact hm p hp'
    · rcases List.mem_singleton.mp hp' with rfl
      exact le_refl 1

theorem foldl_bumpCount_values {ts : List String} :
    ∀ {wc : Vocab}, (∀ p ∈ wc, 1 ≤ p.2) → ∀ p ∈ ts.foldl bumpCount wc, 1 ≤ p.2 := by
  induction ts with
  | nil => exact fun h => h
  | cons t ts ih =>
    intro wc hwc
    rw [List.foldl_cons]
    exact ih (bumpCount_values hwc)

theorem build_vocab_values {tokenizer : String → List String} {lines : List String} :
    ∀ p ∈ build_vocab tokenizer (some lines), 1 ≤ p.2 := by
  have main : ∀ (ls : List String) (wc : Vocab), (∀ p ∈ wc, 1 ≤ p.2) →
      ∀ p ∈ ls.foldl
        (fun wc line => (tokenizer (trimStr (toLowerStr line))).foldl bumpCount wc) wc,
        1 ≤ p.2 := by
    intro ls
    induction ls with
    | nil => exact fun wc h => h
    | cons l ls ih =>
      intro wc hwc
      rw [List.foldl_cons]
      exact ih _ (foldl_bumpCount_values hwc)
  exact main lines [] (by intro p hp; cases hp)

/-- C8: a token mapped to code `0` by the Vocabulary (as `read_vocab` does for
its first distinct first-token) is excluded from every candidate span exactly
as if it were out-of-vocabulary, while `build_vocab` only ever assigns codes
of at least 1 (the token's occurrence count), so the collision cannot arise
in corpus-derived vocabularies. -/
theorem C8_sentinel_collision :
    (∀ (P : Patterns) (vocab : Vocab) (tok : List String) (t : String) (i j : Nat),
        vlookup vocab t = some 0 → (i, j) ∈ candidates P vocab tok →
        ∀ k, i ≤ k → k ≤ j → tok.getD k "" ≠ t) ∧
    (∀ (tokenizer : String → List String) (lines : List String) (w : String) (c : Nat),
        vlookup (build_vocab tokenizer (some lines)) w = some c → 1 ≤ c) := by
  constructor
  · intro P vocab tok t i j ht h k hik hkj heq
    have hnz := candidates_no_zero h k hik hkj
    by_cases hk : k < tok.length
    · rw [sentCodes_getD hk, heq, ht] at hnz
      exact hnz rfl
    · refine hnz (List.getD_eq_default _ _ ?_)
      simp only [sentCodes, List.length_map]
      omega
  · intro tokenizer lines w c h
    rcases vlookup_value h with ⟨p, hp, rfl⟩
    exact build_vocab_values p hp

/-- Witness for C8: with a Vocabulary mapping `"z"` to `0`, the candidate span
`(0, 1)` of the sentence `"a b z"` excludes `"z"`; and `build_vocab` on
`["a"]` assigns `"a"` the code `1 ≥ 1`. -/
theorem C8_sentinel_collision_witness :
    (split_whitespace (trimStr "a b z")).getD 1 "" ≠ "z" ∧ (1 : Nat) ≤ 1 :=
  ⟨C8_sentinel_collision.1
      (compile [("a", 1), ("b", 1), ("c", 1), ("z", 0)] ["a b"] 2)
      [("a", 1), ("b", 1), ("c", 1), ("z", 0)] (split_whitespace (trimStr "a b z")) "z" 0 1
      (by decide) (by decide) 1 (by decide) (by decide),
   C8_sentinel_collision.2 split_whitespace ["a"] "a" 1 (by decide)⟩

/-! ### Claim C6: code assignment of `read_vocab` -/

/-- The sequence of per-line first tokens `read_vocab` inserts: the head of
the token list of each line (lowercased, trimmed), lines without tokens
skipped. -/
def firstTokens (tokenizer : String → List String) (lines : List String) : List String :=
  lines.filterMap (fun l => (tokenizer (trimStr (toLowerStr l))).head?)

theorem vlookup_eq_none_iff {m : Vocab} {k : String} :
    vlookup m k = none ↔ m.any (fun p => p.1 == k) = false := by
  induction m with
  | nil => simp [vlookup]
  | cons p m ih =>
    simp only [vlookup, List.any_cons]
    by_cases hp : (p.1 == k) = true
    · simp [hp]
    · rw [Bool.not_eq_true] at hp
      simp [hp, ih]

theorem vlookup_append_other {m : Vocab} {k k' : String} {v : Nat} (hne : k' ≠ k) :
    vlookup (m ++ [(k, v)]) k' = vlookup m k' := by
  induction m with
  | nil =>
    simp only [List.nil_append, vlookup]
    rw [if_neg (by simpa using fun h => hne h.symm)]
  | cons p m ih =>
    simp only [List.cons_append, vlookup, List.append_eq]
    rw [ih]

theorem vlookup_map_key_other {m : Vocab} {k k' : String} {v : Nat} (hne : k' ≠ k) :
    vlookup (m.map (fun p => if p.1 == k then (p.1, v) else p)) k' = vlookup m k' := by
  induction m with
  | nil => rfl
  | cons p m ih =>
    simp only [List.map_cons]
    by_cases hp : (p.1 == k) = true
    · rw [if_pos hp]
      simp only [vlookup]
      rw [ih]
      have hp' : p.1 = k := by simpa using hp
      rw [if_neg (by rw [hp']; simpa using fun h => hne h.symm)]
      rw [if_neg (by rw [hp']; simpa using fun h => hne h.symm)]
    · rw [if_neg hp]
      simp only [vlookup]
      rw [ih]

theorem vlookup_insertMap_other {m : Vocab} {k k' : String} (v : Nat) (hne : k' ≠ k) :
    vlookup (insertMap m k v) k' = vlookup m k' := by
  unfold insertMap
  split_ifs with hany
  · exact vlookup_map_key_other hne
  · exact vlookup_append_other hne

theorem vlookup_append_self {m : Vocab} {k : String} {v : Nat} (h : vlookup m k = none) :
    vlookup (m ++ [(k, v)]) k = some v := by
  induction m with
  | nil =>
    simp only [List.nil_append, vlookup]
    rw [if_pos (by simp)]
  | cons p m ih =>
    simp only [vlookup] at h
    simp only [List.cons_append, vlookup, List.append_eq]
    by_cases hp : (p.1 == k) = true
    · rw [if_pos hp] at h
      cases h
    · rw [if_neg hp] at h
      rw [if_neg hp]
      exact ih h

theorem vlookup_map_key_self {m : Vocab} {k : String} {v : Nat}
    (hany : m.any (fun p => p.1 == k) = true) :
    vlookup (m.map (fun p => if p.1 == k then (p.1, v) else p)) k = some v := by
  induction m with
  | nil => cases hany
  | cons p m ih =>
    simp only [List.any_cons, Bool.or_eq_true] at hany
    simp only [List.map_cons]
    by_cases hp : (p.1 == k) = true
    · rw [if_pos hp]
      simp only [vlookup]
      rw [if_pos hp]
    · rw [if_neg hp]
      simp only [vlookup]
      rw [if_neg hp]
      exact ih (hany.resolve_left hp)

theorem vlookup_insertMap_self (m : Vocab) (k : String) (v : Nat) :
    vlookup (insertMap m k v) k = some v := by
  unfold insertMap
  split_ifs with hany
  · exact vlookup_map_key_self hany
  · exact vlookup_append_self (vlookup_eq_none_iff.mpr (Bool.eq_false_iff.mpr hany))

theorem insertMap_length_fresh {m : Vocab} {k : String} (v : Nat)
    (h : vlookup m k = none) : (insertMap m k v).length = m.length + 1 := by
  unfold insertMap
  rw [vlookup_eq_none_iff] at h
  rw [if_neg (by rw [h]; simp)]
  simp

/-- Keys not named by any insertion of the `read_vocab` fold keep their
lookup. -/
theorem foldl_insertMap_not_mem {ws : List String} :
    ∀ {wc : Vocab} {w : String}, w ∉ ws →
      vlookup (ws.foldl (fun wc w => insertMap wc w wc.length) wc) w = vlookup wc w := by
  induction ws with
  | nil => intro wc w _; rfl
  | cons w' ws ih =>
    intro wc w hw
    simp only [List.mem_cons, not_or] at hw
    rw [List.foldl_cons, ih hw.2, vlookup_insertMap_other _ hw.1]

/-- With pairwise distinct keys, all fresh for the accumulator, the
`read_vocab` insertion fold assigns sequential codes starting at the
accumulator's size. -/
theorem foldl_insertMap_codes {ws : List String} :
    ∀ {wc : Vocab}, ws.Nodup → (∀ w ∈ ws, vlookup wc w = none) →
      ∀ (k : Nat) (hk : k < ws.length),
        vlookup (ws.foldl (fun wc w => insertMap wc w wc.length) wc) (ws.get ⟨k, hk⟩) =
          some (wc.length + k) := by
  induction ws with
  | nil =>
    intro wc _ _ k hk
    exact absurd hk (by simp)
  | cons w ws ih =>
    intro wc hnd hfresh k hk
    have hwf : vlookup wc w = none := hfresh w (List.mem_cons_self w ws)
    have hndw : w ∉ ws := (List.nodup_cons.mp hnd).1
    have hlen : (insertMap wc w wc.length).length = wc.length + 1 :=
      insertMap_length_fresh _ hwf
    have hfresh' : ∀ w' ∈ ws, vlookup (insertMap wc w wc.length) w' = none := by
      intro w' hw'
      rw [vlookup_insertMap_other _ (by intro heq; exact hndw (heq ▸ hw'))]
      exact hfresh w' (List.mem_cons_of_mem w hw')
    rw [List.foldl_cons]
    cases k with
    | zero =>
      show vlookup _ w = some (wc.length + 0)
      rw [foldl_insertMap_not_mem hndw, vlookup_insertMap_self, Nat.add_zero]
    | succ k' =>
      have hk' : k' < ws.length := by simpa using hk
      have h := ih (List.nodup_cons.mp hnd).2 hfresh' k' hk'
      rw [hlen] at h
      show vlookup _ (ws.get ⟨k', hk'⟩) = some (wc.length + (k' + 1))
      rw [h]
      congr 1
      omega

theorem read_vocab_eq_foldl_firstTokens (tokenizer : String → List String)
    (lines : List String) :
    read_vocab tokenizer (some lines) =
      (firstTokens tokenizer lines).foldl (fun wc w => insertMap wc w wc.length) [] := by
  have main : ∀ (ls : List String) (wc : Vocab),
      ls.foldl
        (fun wc line =>
          match (tokenizer (trimStr (toLowerStr line))).head? with
          | some word => insertMap wc word wc.length
          | none => wc) wc =
      (firstTokens tokenizer ls).foldl (fun wc w => insertMap wc w wc.length) wc := by
    intro ls
    induction ls with
    | nil => intro wc; rfl
    | cons l ls ih =>
      intro wc
      rw [List.foldl_cons]
      unfold firstTokens
      rw [List.filterMap_cons]
      cases hh : (tokenizer (trimStr (toLowerStr l))).head? with
      | none => exact ih wc
      | some word =>
        rw [List.foldl_cons]
        exact ih (insertMap wc word wc.length)
  exact main lines []

/-- C6 (amended): when no two lines of the vocabulary file share the same
first token, `read_vocab` assigns each first token the next sequential
integer code `0, 1, 2, ...` in order of appearance.  (When a first token
repeats, later occurrences overwrite the code with the map's current size —
see the counterexample.) -/
theorem C6_read_vocab_amended (tokenizer : String → List String) (lines : List String)
    (hnd : (firstTokens tokenizer lines).Nodup) :
    ∀ (k : Nat) (hk : k < (firstTokens tokenizer lines).length),
      vlookup (read_vocab tokenizer (some lines))
        ((firstTokens tokenizer lines).get ⟨k, hk⟩) = some k := by
  intro k hk
  rw [read_vocab_eq_foldl_firstTokens]
  have h := @foldl_insertMap_codes (firstTokens tokenizer lines) [] hnd
    (fun w _ => rfl) k hk
  simpa using h

/-- Witness for C6 (amended) on the two-line file `["a", "b"]`: the second
first token gets code `1`. -/
theorem C6_read_vocab_amended_witness :
    vlookup (read_vocab split_whitespace (some ["a", "b"]))
      ((firstTokens split_whitespace ["a", "b"]).get ⟨1, by decide⟩) = some 1 :=
  C6_read_vocab_amended split_whitespace ["a", "b"] (by decide) 1 (by decide)

/-! ### Claim C1: exact-membership soundness (amended) -/

theorem getD_append_length {α : Type} (A B : List α) (k : Nat) (d : α) :
    (A ++ B).getD (A.length + k) d = B.getD k d := by
  induction A with
  | nil => simp
  | cons a A ih =>
    simp only [List.cons_append, List.length_cons]
    rw [show A.length + 1 + k = (A.length + k) + 1 from by omega]
    simpa using ih

theorem getD_append_lt {α : Type} (A B : List α) (k : Nat) (d : α) (h : k < A.length) :
    (A ++ B).getD k d = A.getD k d := by
  induction A generalizing k with
  | nil => exact absurd h (by simp)
  | cons a A ih =>
    cases k with
    | zero => rfl
    | succ k' =>
      simp only [List.cons_append, List.getD_cons_succ]
      exact ih k' (by simpa using h)

/-- The slice `[i, i + len - 1]` of `A ++ B ++ C` starting at `i = A.length`
with `len = B.length` is exactly `B`. -/
theorem window_extract {α : Type} (A B C : List α) (hB : 1 ≤ B.length) :
    ((A ++ B ++ C).drop A.length).take (A.length + B.length - 1 + 1 - A.length) = B := by
  rw [show A.length + B.length - 1 + 1 - A.length = B.length from by omega,
    List.append_assoc, List.drop_left, List.take_left]

/-- Core of the amended C1: if a pattern with all-nonzero codes has its
length, first code, last code and checksum pair in the filter, then every
sentence embedding it contiguously yields the covering candidate span. -/
theorem candidates_cover (pre suf : List String) {P : Patterns} {vocab : Vocab}
    {T : List String} {c : Nat} {cs : List Nat}
    (hres : resolveTokens vocab T = some (c :: cs))
    (hnz : ∀ z ∈ c :: cs, z ≠ 0)
    (hL : T.length ∈ P.lengths)
    (hb : c ∈ P.b_ints)
    (he : (c :: cs).getD (T.length - 1) 0 ∈ P.e_ints)
    (hcs : (crc32 (String.intercalate " " T), fletcher (c :: cs)) ∈ P.checksums) :
    (pre.length, pre.length + T.length - 1) ∈ candidates P vocab (pre ++ T ++ suf) := by
  have hcl : (c :: cs).length = T.length := resolveTokens_length hres
  have hT1 : 1 ≤ T.length := by rw [← hcl]; simp
  have hsc : sentCodes vocab T = c :: cs := resolveTokens_sentCodes hres
  have hpre_len : (sentCodes vocab pre).length = pre.length := List.length_map _ _
  have hti : sentCodes vocab (pre ++ T ++ suf) =
      sentCodes vocab pre ++ (c :: cs) ++ sentCodes vocab suf := by
    unfold sentCodes at hsc ⊢
    rw [List.map_append, List.map_append, hsc]
  have hti_len : (sentCodes vocab (pre ++ T ++ suf)).length =
      pre.length + T.length + suf.length := by
    simp [sentCodes]
    omega
  have hwin : ((sentCodes vocab (pre ++ T ++ suf)).drop pre.length).take
      (pre.length + T.length - 1 + 1 - pre.length) = c :: cs := by
    rw [hti, ← hpre_len, ← hcl]
    exact window_extract _ _ _ (by simp)
  have hwtok : ((pre ++ T ++ suf).drop pre.length).take
      (pre.length + T.length - 1 + 1 - pre.length) = T :=
    window_extract pre T suf hT1
  have hgb : (sentCodes vocab (pre ++ T ++ suf)).getD pre.length 0 = c := by
    rw [hti, List.append_assoc, ← hpre_len]
    have h := getD_append_length (sentCodes vocab pre)
      ((c :: cs) ++ sentCodes vocab suf) 0 0
    simpa using h
  have hge : (sentCodes vocab (pre ++ T ++ suf)).getD (pre.length + T.length - 1) 0 =
      (c :: cs).getD (T.length - 1) 0 := by
    rw [hti, List.append_assoc, ← hpre_len, ← hcl,
      show (sentCodes vocab pre).length + (c :: cs).length - 1 =
        (sentCodes vocab pre).length + ((c :: cs).length - 1) from by
          simp only [List.length_cons]
          omega,
      getD_append_length]
    exact getD_append_lt _ _ _ _ (by simp only [List.length_cons]; omega)
  apply mem_candidates.mpr
  refine ⟨pre.length, ?_, ?_, T.length, hL, ?_⟩
  · rw [hti_len]
    omega
  · rw [hgb]
    exact contains_iff_mem.mpr hb
  · apply windowCheck_eq_some.mpr
    refine ⟨rfl, ?_, ?_, ?_, ?_⟩
    · rw [hti_len]
      omega
    · rw [hwin]
      exact contains_eq_false_iff.mpr (fun h0 => hnz 0 h0 rfl)
    · rw [hge]
      exact contains_iff_mem.mpr he
    · rw [hwtok, hwin]
      exact contains_iff_mem.mpr hcs

/-- C1 (amended): for every pattern line included verbatim in the compiling
corpus whose tokens all resolve in the Vocabulary to *nonzero* codes and
whose token count is at most `max_len`, and for every query sentence whose
token sequence contains that pattern's token sequence as a contiguous
subsequence, `match_phrase` with the same Vocabulary records the candidate
span covering exactly that occurrence, and the pattern's joined text appears
in the matches returned with `remove_subset = false`.  (As stated — without
the nonzero-code requirement — the claim is refuted by
`C1_counterexample`.) -/
theorem C1_exact_membership_amended
    (vocab : Vocab) (corpus : List String) (max_len : Nat) (line : String)
    (c : Nat) (cs : List Nat) (tokenizer : String → List String) (sentence : String)
    (pre suf : List String)
    (hline : line ∈ corpus)
    (hres : resolveTokens vocab (split_whitespace (trimStr line)) = some (c :: cs))
    (hnz : ∀ z ∈ c :: cs, z ≠ 0)
    (hlen : (split_whitespace (trimStr line)).length ≤ max_len)
    (htok : tokenizer (trimStr sentence) =
      pre ++ split_whitespace (trimStr line) ++ suf) :
    (pre.length, pre.length + (split_whitespace (trimStr line)).length - 1) ∈
      candidates (compile vocab corpus max_len) vocab (tokenizer (trimStr sentence)) ∧
    String.intercalate " " (split_whitespace (trimStr line)) ∈
      match_phrase tokenizer vocab (compile vocab corpus max_len) sentence false := by
  have hmem := compile_mem hline hres hlen
  have hcov := candidates_cover pre suf hres hnz hmem.1 hmem.2.1 hmem.2.2.1 hmem.2.2.2
  have hT1 : 1 ≤ (split_whitespace (trimStr line)).length := by
    rw [← resolveTokens_length hres]
    simp
  constructor
  · rw [htok]
    exact hcov
  · unfold match_phrase matchTokens
    rw [htok]
    refine List.mem_map.mpr ⟨(pre.length, pre.length +
      (split_whitespace (trimStr line)).length - 1), ?_, ?_⟩
    · simpa using hcov
    · exact congrArg _ (window_extract pre (split_whitespace (trimStr line)) suf hT1)

/-- Witness for C1 (amended): the pattern `"a b"` compiled from the corpus
`["a b"]` with the Vocabulary built from the same corpus is found inside the
sentence `"x a b"`. -/
theorem C1_exact_membership_amended_witness :
    ((["x"] : List String).length,
      (["x"] : List String).length + (split_whitespace (trimStr "a b")).length - 1) ∈
      candidates (compile (build_vocab split_whitespace (some ["a b"])) ["a b"] 2)
        (build_vocab split_whitespace (some ["a b"]))
        (split_whitespace (trimStr "x a b")) ∧
    String.intercalate " " (split_whitespace (trimStr "a b")) ∈
      match_phrase split_whitespace (build_vocab split_whitespace (some ["a b"]))
        (compile (build_vocab split_whitespace (some ["a b"])) ["a b"] 2) "x a b" false :=
  C1_exact_membership_amended (build_vocab split_whitespace (some ["a b"])) ["a b"] 2 "a b"
    1 [1] split_whitespace "x a b" ["x"] []
    (by decide) (by decide) (by decide) (by decide) (by decide)

/-! ### Claim C10: case asymmetry between build and use -/

theorem isUpper_eq_decide (c : Char) :
    c.isUpper = (decide (65 ≤ c.toNat) && decide (c.toNat ≤ 90)) := by
  unfold Char.isUpper
  congr 1

/-- ASCII case folding maps every character out of the uppercase range. -/
theorem isUpper_toLower (c : Char) : (Char.toLower c).isUpper = false := by
  simp only [Char.toLower]
  split_ifs with h
  · have hv : (Char.ofNat (c.toNat + 32)).toNat = c.toNat + 32 := by
      rw [Char.ofNat, dif_pos (Or.inl (by omega))]
      rfl
    rw [isUpper_eq_decide, hv]
    have h2 : ¬(c.toNat + 32 ≤ 90) := by omega
    simp [h2]
  · rw [isUpper_eq_decide]
    by_cases h1 : 65 ≤ c.toNat
    · have h2 : ¬(c.toNat ≤ 90) := fun h2 => h ⟨h1, h2⟩
      simp [h2]
    · simp [h1]

theorem foldr_splitStep_chars (cs : List Char) :
    ∀ w ∈ cs.foldr splitStep [], ∀ ch ∈ w, ch ∈ cs := by
  induction cs with
  | nil =>
    intro w hw
    cases hw
  | cons c cs ih =>
    intro w hw ch hch
    rw [List.foldr_cons] at hw
    cases hrec : cs.foldr splitStep [] with
    | nil =>
      rw [hrec] at hw
      unfold splitStep at hw
      split_ifs at hw with hws
      · have hw' : w = [] := List.mem_singleton.mp hw
        subst hw'
        cases hch
      · have hw' : w = [c] := List.mem_singleton.mp hw
        subst hw'
        have hc : ch = c := List.mem_singleton.mp hch
        subst hc
        exact List.mem_cons_self ch cs
    | cons w0 rest =>
      rw [hrec] at hw
      unfold splitStep at hw
      split_ifs at hw with hws
      · rcases List.mem_cons.mp hw with rfl | hw'
        · cases hch
        · refine List.mem_cons_of_mem c (ih w ?_ ch hch)
          rw [hrec]
          exact hw'
      · rcases List.mem_cons.mp hw with rfl | hw'
        · rcases List.mem_cons.mp hch with rfl | hch'
          · exact List.mem_cons_self ch cs
          · refine List.mem_cons_of_mem c (ih w0 ?_ ch hch')
            rw [hrec]
            exact List.mem_cons_self w0 rest
        · refine List.mem_cons_of_mem c (ih w ?_ ch hch)
          rw [hrec]
          exact List.mem_cons_of_mem w0 hw'

theorem splitWSChars_chars {cs : List Char} {w : List Char} (hw : w ∈ splitWSChars cs) :
    ∀ ch ∈ w, ch ∈ cs := by
  unfold splitWSChars at hw
  exact foldr_splitStep_chars cs w (List.mem_filter.mp hw).1

theorem trimChars_subset {cs : List Char} : ∀ c ∈ trimChars cs, c ∈ cs := by
  intro c hc
  unfold trimChars at hc
  rw [List.mem_reverse] at hc
  have h1 := (List.dropWhile_sublist _).subset hc
  rw [List.mem_reverse] at h1
  exact (List.dropWhile_sublist _).subset h1

/-- Every token the whitespace tokenizer produces from a lowercased line is
free of ASCII uppercase characters. -/
theorem token_chars_no_upper {line : String} {t : String}
    (ht : t ∈ split_whitespace (trimStr (toLowerStr line))) :
    t.data.any Char.isUpper = false := by
  unfold split_whitespace at ht
  rcases List.mem_map.mp ht with ⟨w, hw, rfl⟩
  rw [List.any_eq_false]
  intro ch hch
  have hch1 : ch ∈ (trimStr (toLowerStr line)).data := splitWSChars_chars hw ch hch
  have hch2 : ch ∈ (toLowerStr line).data := trimChars_subset ch hch1
  rcases List.mem_map.mp hch2 with ⟨c0, -, rfl⟩
  rw [isUpper_toLower]
  simp

theorem bumpCount_keys {m : Vocab} {w : String} {p : String × Nat} (hp : p ∈ bumpCount m w) :
    (∃ q ∈ m, p.1 = q.1) ∨ p.1 = w := by
  unfold bumpCount at hp
  split_ifs at hp with h
  · rcases List.mem_map.mp hp with ⟨q, hq, hpq⟩
    by_cases hqw : (q.1 == w) = true
    · rw [if_pos hqw] at hpq
      exact Or.inl ⟨q, hq, by rw [← hpq]⟩
    · rw [if_neg hqw] at hpq
      exact Or.inl ⟨q, hq, by rw [← hpq]⟩
  · rcases List.mem_append.mp hp with hp' | hp'
    · exact Or.inl ⟨p, hp', rfl⟩
    · rcases List.mem_singleton.mp hp' with rfl
      exact Or.inr rfl

theorem insertMap_keys {m : Vocab} {k : String} {v : Nat} {p : String × Nat}
    (hp : p ∈ insertMap m k v) :
    (∃ q ∈ m, p.1 = q.1) ∨ p.1 = k := by
  unfold insertMap at hp
  split_ifs at hp with h
  · rcases List.mem_map.mp hp with ⟨q, hq, hpq⟩
    by_cases hqk : (q.1 == k) = true
    · rw [if_pos hqk] at hpq
      exact Or.inl ⟨q, hq, by rw [← hpq]⟩
    · rw [if_neg hqk] at hpq
      exact Or.inl ⟨q, hq, by rw [← hpq]⟩
  · rcases List.mem_append.mp hp with hp' | hp'
    · exact Or.inl ⟨p, hp', rfl⟩
    · rcases List.mem_singleton.mp hp' with rfl
      exact Or.inr rfl

theorem build_vocab_keys_no_upper {lines : List String} :
    ∀ p ∈ build_vocab split_whitespace (some lines),
      p.1.data.any Char.isUpper = false := by
  have inner : ∀ (ts : List String) (wc : Vocab),
      (∀ t ∈ ts, t.data.any Char.isUpper = false) →
      (∀ p ∈ wc, p.1.data.any Char.isUpper = false) →
      ∀ p ∈ ts.foldl bumpCount wc, p.1.data.any Char.isUpper = false := by
    intro ts
    induction ts with
    | nil => exact fun wc _ hwc => hwc
    | cons t ts ih =>
      intro wc hts hwc
      rw [List.foldl_cons]
      refine ih _ (fun t' ht' => hts t' (List.mem_cons_of_mem t ht')) ?_
      intro p hp
      rcases bumpCount_keys hp with ⟨q, hq, hpq⟩ | hpq
      · rw [hpq]
        exact hwc q hq
      · rw [hpq]
        exact hts t (List.mem_cons_self t ts)
  have main : ∀ (ls : List String) (wc : Vocab),
      (∀ p ∈ wc, p.1.data.any Char.isUpper = false) →
      ∀ p ∈ ls.foldl
        (fun wc line => (split_whitespace (trimStr (toLowerStr line))).foldl bumpCount wc)
        wc,
        p.1.data.any Char.isUpper = false := by
    intro ls
    induction ls with
    | nil => exact fun wc hwc => hwc
    | cons l ls ih =>
      intro wc hwc
      rw [List.foldl_cons]
      exact ih _ (inner _ _ (fun t ht => token_chars_no_upper ht) hwc)
  exact main lines [] (by intro p hp; cases hp)

theorem read_vocab_keys_no_upper {lines : List String} :
    ∀ p ∈ read_vocab split_whitespace (some lines),
      p.1.data.any Char.isUpper = false := by
  have main : ∀ (ls : List String) (wc : Vocab),
      (∀ p ∈ wc, p.1.data.any Char.isUpper = false) →
      ∀ p ∈ ls.foldl
        (fun wc line =>
          match (split_whitespace (trimStr (toLowerStr line))).head? with
          | some word => insertMap wc word wc.length
          | none => wc)
        wc,
        p.1.data.any Char.isUpper = false := by
    intro ls
    induction ls with
    | nil => exact fun wc hwc => hwc
    | cons l ls ih =>
      intro wc hwc
      rw [List.foldl_cons]
      cases hh : (split_whitespace (trimStr (toLowerStr l))).head? with
      | none => exact ih wc hwc
      | some word =>
        refine ih _ ?_
        intro p hp
        rcases insertMap_keys hp with ⟨q, hq, hpq⟩ | hpq
        · rw [hpq]
          exact hwc q hq
        · rw [hpq]
          have hword : word ∈ split_whitespace (trimStr (toLowerStr l)) := by
            cases hlist : split_whitespace (trimStr (toLowerStr l)) with
            | nil =>
              rw [hlist] at hh
              cases hh
            | cons a as =>
              rw [hlist] at hh
              simp only [List.head?_cons, Option.some_inj] at hh
              subst hh
              exact List.mem_cons_self _ _
          exact token_chars_no_upper hword
  exact main lines [] (by intro p hp; cases hp)

theorem vlookup_none_of_upper {m : Vocab} {t : String}
    (hm : ∀ p ∈ m, p.1.data.any Char.isUpper = false)
    (ht : t.data.any Char.isUpper = true) : vlookup m t = none := by
  induction m with
  | nil => rfl
  | cons p m ih =>
    simp only [vlookup]
    by_cases hpt : (p.1 == t) = true
    · have hpt' : p.1 = t := by simpa using hpt
      have h := hm p (List.mem_cons_self p m)
      rw [hpt', ht] at h
      cases h
    · rw [if_neg hpt]
      exact ih (fun q hq => hm q (List.mem_cons_of_mem p hq))

theorem compileLine_eq_of_resolve_none {vocab : Vocab} {max_len : Nat} {P : Patterns}
    {pat : String} (h : resolveTokens vocab (split_whitespace (trimStr pat)) = none) :
    compileLine vocab max_len P pat = P := by
  unfold compileLine
  split_ifs with hlen
  · rfl
  · rw [h]

/-- C10: with the whitespace tokenizer, `build_vocab` and `read_vocab`
lowercase each line before tokenizing, so every Vocabulary key is free of
ASCII uppercase letters; `compile` and `match_phrase` look tokens up without
lowercasing, so against any such Vocabulary a pattern line containing a token
with an uppercase letter is entirely discarded by the compiler, and a
sentence token with an uppercase letter is mapped to the out-of-vocabulary
sentinel `0`. -/
theorem C10_case_asymmetry (lines : List String) (line : String) (max_len : Nat)
    (P : Patterns) (vocab : Vocab) (tok : List String) :
    (∀ p ∈ build_vocab split_whitespace (some lines),
      p.1.data.any Char.isUpper = false) ∧
    (∀ p ∈ read_vocab split_whitespace (some lines),
      p.1.data.any Char.isUpper = false) ∧
    ((∀ p ∈ vocab, p.1.data.any Char.isUpper = false) →
      ((split_whitespace (trimStr line)).any (fun t => t.data.any Char.isUpper) = true →
        compileLine vocab max_len P line = P) ∧
      (∀ k : Nat, k < tok.length → (tok.getD k "").data.any Char.isUpper = true →
        (sentCodes vocab tok).getD k 0 = 0)) := by
  refine ⟨build_vocab_keys_no_upper, read_vocab_keys_no_upper, fun hvoc => ⟨?_, ?_⟩⟩
  · intro hany
    rcases List.any_eq_true.mp hany with ⟨t, ht, hup⟩
    exact compileLine_eq_of_resolve_none
      (resolveTokens_eq_none ht (vlookup_none_of_upper hvoc hup))
  · intro k hk hup
    rw [sentCodes_getD hk, vlookup_none_of_upper hvoc hup]
    rfl

/-- Witness for C10: against the lowercase Vocabulary `[("x", 1)]`, the
pattern line `"Ab"` is discarded whole, and the sentence token `"Ab"`
resolves to the sentinel `0`. -/
theorem C10_case_asymmetry_witness :
    compileLine [("x", 1)] 3 Patterns.new "Ab" = Patterns.new ∧
    (sentCodes [("x", 1)] ["Ab"]).getD 0 0 = 0 :=
  ⟨((C10_case_asymmetry [] "Ab" 3 Patterns.new [("x", 1)] ["Ab"]).2.2 (by decide)).1
      (by decide),
   ((C10_case_asymmetry [] "Ab" 3 Patterns.new [("x", 1)] ["Ab"]).2.2 (by decide)).2 0
      (by decide) (by decide)⟩
